import Mathlib

/-!
Verification of the statistics-rendering core of `waka-readme-stats`.

The embedding below translates, into Lean, the parts of the Python sources
that the claims are about:

* `sources/manager_github.py` — the README section replacer
  (`GitHubManager._generate_new_readme` / `GitHubManager.update_readme`),
  built on Python's `re.sub` with the pattern
  `START_COMMENT + "[\s\S]+" + END_COMMENT`;
* `sources/graphics_list_formatter.py` — `Symbol`, `make_graph`,
  `make_list`, the day-time bucket counting of
  `make_commit_day_time_list`, and `make_language_per_repo_list`.

Strings are modelled as `List Char` (Python `len`/indexing count code
points, as does `List Char`).  Python floats are modelled as `ℚ`; `round`
is modelled as round-half-to-even on rationals.  Fallible operations
(Python exceptions) return `Option`.  Recursions that Python performs with
unbounded loops are given an explicit fuel argument equal to an a priori
bound, so every definition evaluates by kernel reduction.
-/

/-! ## Section replacer (`manager_github.py`)

`GitHubManager._generate_new_readme` calls
`re.sub(START + "[\s\S]+" + END, replacement, contents)` where `START` and
`END` are the literal marker comments.  For that pattern a match exists iff
the first occurrence `i` of `START` is followed (with at least one
character in between, from `+`) by some occurrence of `END`; since
`[\s\S]+` is greedy the match runs from `i` to the *last* occurrence of
`END`, inclusive.  `re.sub` then substitutes the template with template
escapes expanded (`\g<0>` is the whole match, `\\` a backslash, octal and
letter escapes their characters; a reference to a nonexistent group or an
unknown letter escape raises `re.error`, modelled as `none`), and resumes
scanning after the match — no `END` remains there, so there is at most one
substitution. -/

/-- `occursAt pat s i` — `pat` occurs in `s` starting at index `i`. -/
def occursAt (pat s : List Char) (i : ℕ) : Prop :=
  (s.drop i).take pat.length = pat

instance (pat s : List Char) (i : ℕ) : Decidable (occursAt pat s i) := by
  unfold occursAt; infer_instance

/-- Index of the first occurrence of `pat` in `s` (the leftmost position at
which the regex engine can anchor a match). -/
def findFirst (pat : List Char) : List Char → Option ℕ
  | [] => if ([] : List Char).take pat.length = pat then some 0 else none
  | c :: s =>
    if (c :: s).take pat.length = pat then some 0
    else (findFirst pat s).map (· + 1)

/-- Index of the last occurrence of `pat` in `s` (where the greedy
`[\s\S]+` leaves the trailing marker). -/
def findLast (pat : List Char) : List Char → Option ℕ
  | [] => if ([] : List Char).take pat.length = pat then some 0 else none
  | c :: s =>
    match findLast pat s with
    | some i => some (i + 1)
    | none => if (c :: s).take pat.length = pat then some 0 else none

/-- Span of the unique match of `sm ++ "[\s\S]+" ++ em` in `doc`:
first occurrence of `sm`, last occurrence of `em`, at least one character
between them.  Returns the start indices of both markers. -/
def findSpan (sm em doc : List Char) : Option (ℕ × ℕ) :=
  match findFirst sm doc, findLast em doc with
  | some i, some j => if i + sm.length + 1 ≤ j then some (i, j) else none
  | _, _ => none

/-- A token of a parsed `re.sub` replacement template: a literal character
or a reference to group 0 (the whole match). -/
inductive ReplTok where
  | lit (c : Char)
  | group0
deriving DecidableEq

/-- Split a leading run of decimal digits off a character list. -/
def splitDigits : List Char → List Char × List Char
  | [] => ([], [])
  | c :: rs =>
    if c.isDigit then
      let p := splitDigits rs
      (c :: p.1, p.2)
    else ([], c :: rs)

/-- Numeric value of a list of decimal digits. -/
def digitsVal (ds : List Char) : ℕ :=
  ds.foldl (fun a c => a * 10 + (c.toNat - 48)) 0

/-- Octal digit test. -/
def isOctalDigit (c : Char) : Bool := '0' ≤ c && c ≤ '7'

/-- Octal digit value. -/
def octVal (c : Char) : ℕ := c.toNat - 48

/-- The ASCII letter escapes accepted in a `re.sub` template
(`sre_parse.ESCAPES`, backslash handled separately). -/
def escChar (c : Char) : Option Char :=
  if c = 'a' then some (Char.ofNat 7)
  else if c = 'b' then some (Char.ofNat 8)
  else if c = 'f' then some (Char.ofNat 12)
  else if c = 'n' then some '\n'
  else if c = 'r' then some (Char.ofNat 13)
  else if c = 't' then some '\t'
  else if c = 'v' then some (Char.ofNat 11)
  else none

/-- Parse a `re.sub` replacement template, for a pattern with no capture
groups (the README pattern has none, so only `\g<0>` is a valid group
reference; `\1` … `\99` or `\g<1>` … raise `re.error`).  `fuel` bounds the
recursion; `parseRepl` supplies `length + 1`, which never runs out. -/
def parseReplAux : ℕ → List Char → Option (List ReplTok)
  | 0, _ => none
  | _ + 1, [] => some []
  | fuel + 1, c :: rs =>
    if c = '\\' then
      match rs with
      | [] => none
      | e :: rs2 =>
        if e = 'g' then
          match rs2 with
          | '<' :: rs3 =>
            match splitDigits rs3 with
            | (ds, '>' :: rs4) =>
              if ds ≠ [] ∧ digitsVal ds = 0 then
                (parseReplAux fuel rs4).map (.group0 :: ·)
              else none
            | _ => none
          | _ => none
        else if e = '0' then
          match rs2 with
          | d1 :: d2 :: rs3 =>
            if isOctalDigit d1 && isOctalDigit d2 then
              (parseReplAux fuel rs3).map (.lit (Char.ofNat (octVal d1 * 8 + octVal d2)) :: ·)
            else if isOctalDigit d1 then
              (parseReplAux fuel (d2 :: rs3)).map (.lit (Char.ofNat (octVal d1)) :: ·)
            else (parseReplAux fuel rs2).map (.lit (Char.ofNat 0) :: ·)
          | [d1] =>
            if isOctalDigit d1 then
              (parseReplAux fuel []).map (.lit (Char.ofNat (octVal d1)) :: ·)
            else (parseReplAux fuel rs2).map (.lit (Char.ofNat 0) :: ·)
          | [] => (parseReplAux fuel []).map (.lit (Char.ofNat 0) :: ·)
        else if e.isDigit then none
        else
          match escChar e with
          | some ec => (parseReplAux fuel rs2).map (.lit ec :: ·)
          | none =>
            if e = '\\' then (parseReplAux fuel rs2).map (.lit '\\' :: ·)
            else if e.isAlpha then none
            else (parseReplAux fuel rs2).map (fun ts => .lit '\\' :: .lit e :: ts)
    else (parseReplAux fuel rs).map (.lit c :: ·)

/-- Parse a replacement template (`re._parser.parse_template`); the
template is parsed before any match is attempted, so a bad escape raises
even when the pattern does not occur. -/
def parseRepl (l : List Char) : Option (List ReplTok) :=
  parseReplAux (l.length + 1) l

/-- Expand a parsed template against the matched span. -/
def expandRepl (toks : List ReplTok) (matched : List Char) : List Char :=
  match toks with
  | [] => []
  | .lit c :: ts => c :: expandRepl ts matched
  | .group0 :: ts => matched ++ expandRepl ts matched

/-- `re.sub(sm + "[\s\S]+" + em, template, doc)`: parse the template, find
the (single) greedy match, and substitute the expanded template for it;
when there is no match the document is returned unchanged. -/
def reSub (sm em template doc : List Char) : Option (List Char) :=
  match parseRepl template with
  | none => none
  | some toks =>
    match findSpan sm em doc with
    | none => some doc
    | some (i, j) =>
      some (doc.take i
        ++ expandRepl toks ((doc.drop i).take (j + em.length - i))
        ++ doc.drop (j + em.length))

/-- `GitHubManager._START_COMMENT` for a given `EM.SECTION_NAME` (the
section name is external configuration, hence a parameter). -/
def startComment (name : List Char) : List Char :=
  "<!--START_SECTION:".toList ++ name ++ "-->".toList

/-- `GitHubManager._END_COMMENT`. -/
def endComment (name : List Char) : List Char :=
  "<!--END_SECTION:".toList ++ name ++ "-->".toList

/-- The replacement string `f"{START}\n{stats}\n{END}"` built by
`_generate_new_readme`. -/
def replacementFor (name stats : List Char) : List Char :=
  startComment name ++ '\n' :: (stats ++ '\n' :: endComment name)

/-- `GitHubManager._generate_new_readme(stats)` applied to the stored
README `contents`. -/
def generate_new_readme (name stats contents : List Char) : Option (List Char) :=
  reSub (startComment name) (endComment name) (replacementFor name stats) contents

/-- `GitHubManager.update_readme(stats)`: regenerate the README and report
whether it differs from the stored contents (the pushed document paired
with the returned boolean; the GitHub API write is external I/O). -/
def update_readme (name stats contents : List Char) : Option (List Char × Bool) :=
  (generate_new_readme name stats contents).map (fun nr => (nr, decide (nr ≠ contents)))

/-! ## Progress bars and fixed-width lists (`graphics_list_formatter.py`) -/

/-- `Symbol.get_symbols(version)`: the three glyph-pair versions of the
`Symbol` enum; any other version raises `KeyError`, modelled as `none`. -/
def Symbol.get_symbols (version : ℕ) : Option (Char × Char) :=
  match version with
  | 1 => some ('█', '░')
  | 2 => some ('⣿', '⣀')
  | 3 => some ('⬛', '⬜')
  | _ => none

/-- The version-1 glyph pair, used to instantiate theorems (the active
pair is selected by the external `EM.SYMBOL_VERSION` configuration). -/
def sym1 : Char × Char := ('█', '░')

/-- Python's `round` to an integer: round half to even on the rational
modelling the float. -/
def rndHalfEven (q : ℚ) : ℤ :=
  let f : ℤ := ⌊q⌋
  if q - (f : ℚ) < 1/2 then f
  else if (1:ℚ)/2 < q - (f : ℚ) then f + 1
  else if f % 2 = 0 then f else f + 1

/-- `make_graph(percent)`: `round(percent / 4)` filled glyphs followed by
`25 - round(percent / 4)` empty glyphs.  Python string repetition with a
negative count yields the empty string, hence the `Int.toNat` clamps. -/
def make_graph (syms : Char × Char) (percent : ℚ) : List Char :=
  let percent_quart : ℤ := rndHalfEven (percent / 4)
  List.replicate percent_quart.toNat syms.1
    ++ List.replicate (25 - percent_quart).toNat syms.2

/-- Decimal digits of a natural number (`str(n)` for nonnegative `n`);
fuelled so that it evaluates by kernel reduction, with `fuel = n + 1`
always sufficient. -/
def natDigitsAux : ℕ → ℕ → List Char
  | 0, _ => []
  | fuel + 1, n =>
    if n < 10 then [Nat.digitChar n]
    else natDigitsAux fuel (n / 10) ++ [Nat.digitChar (n % 10)]

/-- Decimal digit string of a natural number. -/
def natDigits (n : ℕ) : List Char := natDigitsAux (n + 1) n

/-- Two-digit zero-padded decimal string of `n < 100`. -/
def pad2 (n : ℕ) : List Char :=
  if n < 10 then '0' :: natDigits n else natDigits n

/-- Left-pad a string with zeros to width `w` (no-op when already wider),
as `%0<w>` formatting does. -/
def padLeftZeros (w : ℕ) (s : List Char) : List Char :=
  List.replicate (w - s.length) '0' ++ s

/-- Decimal rendering `d+.dd` of a number of hundredths. -/
def hundredthsStr (a : ℕ) : List Char :=
  natDigits (a / 100) ++ '.' :: pad2 (a % 100)

/-- The `f"{p:05.2f}"` field of a list line: the value rounded to
hundredths (half to even), rendered with two decimals and zero-padded to a
minimum width of 5 (sign included for negative values). -/
def fmtPct (q : ℚ) : List Char :=
  let h : ℤ := rndHalfEven (100 * q)
  if h < 0 then '-' :: padLeftZeros 4 (hundredthsStr h.natAbs)
  else padLeftZeros 5 (hundredthsStr h.natAbs)

/-- One line of `make_list`:
`f"{n[:25]}{' ' * (25 - len(n))}{t}{' ' * (20 - len(t))}{make_graph(p)}   {p:05.2f} % "`.
Note the name is truncated to 25 characters but the text `t` is only
padded (never truncated), and the pad counts use Python's clamped-at-zero
string repetition, matching `ℕ` subtraction. -/
def formatLine (syms : Char × Char) (n t : List Char) (p : ℚ) : List Char :=
  n.take 25 ++ List.replicate (25 - n.length) ' '
    ++ t ++ List.replicate (20 - t.length) ' '
    ++ make_graph syms p ++ "   ".toList ++ fmtPct p ++ " % ".toList

/-- `list(zip(names, texts, percents))`: positional zip, silently
truncating to the shortest of the three sequences. -/
def zipData (names texts : List (List Char)) (percents : List ℚ) :
    List (List Char × List Char × ℚ) :=
  names.zip (texts.zip percents)

/-- `sorted(window, key=lambda record: record[2], reverse=True)`: a stable
sort by percent descending; insertion before the first strictly smaller
percent is exactly that stable order. -/
def sortByPercentDesc (l : List (List Char × List Char × ℚ)) :
    List (List Char × List Char × ℚ) :=
  List.insertionSort (fun a b => b.2.2 < a.2.2) l

/-- `data[:top_num]` then the optional sort: the selection window is taken
from the zipped data *before* sorting. -/
def topData (names texts : List (List Char)) (percents : List ℚ)
    (top_num : ℕ) (sort : Bool) : List (List Char × List Char × ℚ) :=
  if sort then sortByPercentDesc ((zipData names texts percents).take top_num)
  else (zipData names texts percents).take top_num

/-- `"\n".join(lines)`. -/
def joinLines (lines : List (List Char)) : List Char :=
  List.intercalate ['\n'] lines

/-- `make_list(names=…, texts=…, percents=…, top_num, sort)` (the `data`
dictionary overload is not exercised by the claims). -/
def make_list (syms : Char × Char) (names texts : List (List Char))
    (percents : List ℚ) (top_num : ℕ := 5) (sort : Bool := true) : List Char :=
  joinLines ((topData names texts percents top_num sort).map
    (fun e => formatLine syms e.1 e.2.1 e.2.2))

/-- Python's `round(x, 2)`: round to hundredths, half to even. -/
def pyRound2 (q : ℚ) : ℚ := (rndHalfEven (100 * q) : ℚ) / 100

/-- The percentage normalization `round(count / total * 100, 2)` used at
`make_commit_day_time_list` and `make_language_per_repo_list`. -/
def percentOf (count total : ℕ) : ℚ :=
  pyRound2 ((count : ℚ) / (total : ℚ) * 100)

/-! ## Day-time bucketing (`make_commit_day_time_list`)

The committed dates are localized by `pytz` (external); the model takes
the already-localized hour (0–23) of each commit. -/

/-- The counting loop `day_times[date.hour // 6] += 1` over a zeroed
4-bucket array. -/
def countDayTimes (hours : List ℕ) : List ℕ :=
  hours.foldl (fun acc h => acc.set (h / 6) (acc.getD (h / 6) 0 + 1)) [0, 0, 0, 0]

/-- `day_times[1:] + day_times[:1]` — the post-counting left rotation. -/
def rotateLeft1 (l : List ℕ) : List ℕ := l.drop 1 ++ l.take 1

/-- The published bucket array: counts first, then the cosmetic rotation. -/
def publishedDayTimes (hours : List ℕ) : List ℕ :=
  rotateLeft1 (countDayTimes hours)

/-! ## Per-repo language list (`make_language_per_repo_list`)

The input is the sequence of `primaryLanguage` names (or `None`) of the
user's repositories; `LM.t` localization is an external lookup, passed in
as the already-formatted-title function `tr`. -/

/-- The `language_count` dictionary: insertion-ordered counts keyed by
language name. -/
def countLangs (ls : List (List Char)) : List (List Char × ℕ) :=
  ls.foldl
    (fun acc l =>
      if acc.any (fun p => p.1 = l) then
        acc.map (fun p => if p.1 = l then (p.1, p.2 + 1) else p)
      else acc ++ [(l, 1)])
    []

/-- `max(keys, key=lambda x: count[x])`: first key of maximal count;
`max` of an empty sequence raises `ValueError`, modelled as `none`. -/
def maxByCount (l : List (List Char × ℕ)) : Option (List Char) :=
  match l with
  | [] => none
  | p :: rest =>
    some (rest.foldl (fun best q => if best.2 < q.2 then q else best) p).1

/-- The `f"{count} repo(s)"` quantity text. -/
def repoText (c : ℕ) : List Char :=
  natDigits c ++ (if c = 1 then " repo".toList else " repos".toList)

/-- `make_language_per_repo_list(repositories)`: count repositories by
primary language, render the `make_list` table, and prepend the
`I Mostly Code in` title.  `top_language = max(...)` is computed before
the `len(repos_with_language) > 0` guard, which only selects the title;
on an input with no language the `max` raises (`none`). -/
def make_language_per_repo_list (tr : List Char → List Char) (syms : Char × Char)
    (langs : List (Option (List Char))) : Option (List Char) :=
  let repos_with_language := langs.filterMap id
  let language_count := countLangs repos_with_language
  let names := language_count.map Prod.fst
  let texts := language_count.map (fun p => repoText p.2)
  let percents := language_count.map (fun p => percentOf p.2 repos_with_language.length)
  match maxByCount language_count with
  | none => none
  | some top_language =>
    let title :=
      if repos_with_language.length > 0 then
        "**".toList ++ tr top_language ++ "** \n\n".toList
      else []
    some (title ++ "```text\n".toList ++ make_list syms names texts percents
      ++ "\n```\n\n".toList)

/-! ## Lemmas: occurrence search -/

/-- Splitting a bounded universal at zero. -/
lemma forall_lt_succ_split (m : ℕ) (P : ℕ → Prop) :
    (∀ k < m + 1, P k) ↔ P 0 ∧ ∀ j < m, P (j + 1) := by
  constructor
  · intro h
    exact ⟨h 0 (by omega), fun j hj => h (j + 1) (by omega)⟩
  · rintro ⟨h0, hs⟩ k hk
    cases k with
    | zero => exact h0
    | succ j => exact hs j (by omega)

lemma occursAt_succ_cons (pat : List Char) (c : Char) (s : List Char) (i : ℕ) :
    occursAt pat (c :: s) (i + 1) ↔ occursAt pat s i := by
  simp [occursAt]

lemma occursAt_nil (pat : List Char) (k : ℕ) :
    occursAt pat [] k ↔ ([] : List Char).take pat.length = pat := by
  simp [occursAt]

lemma occursAt_length (pat s : List Char) (i : ℕ) (hp : pat ≠ [])
    (h : occursAt pat s i) : i + pat.length ≤ s.length := by
  unfold occursAt at h
  have hlen := congrArg List.length h
  simp only [List.length_take, List.length_drop] at hlen
  have : 0 < pat.length := List.length_pos.mpr hp
  omega

lemma findFirst_eq_some_iff (pat s : List Char) (i : ℕ) :
    findFirst pat s = some i ↔ occursAt pat s i ∧ ∀ k < i, ¬ occursAt pat s k := by
  induction s generalizing i with
  | nil =>
    simp only [findFirst]
    by_cases h : ([] : List Char).take pat.length = pat
    · rw [if_pos h]
      constructor
      · intro he
        have hi : i = 0 := by
          have := Option.some.inj he; omega
        subst hi
        exact ⟨(occursAt_nil pat 0).mpr h, by omega⟩
      · rintro ⟨-, hmin⟩
        rcases Nat.eq_zero_or_pos i with rfl | hi
        · rfl
        · exact absurd ((occursAt_nil pat 0).mpr h) (hmin 0 hi)
    · rw [if_neg h]
      constructor
      · intro he; cases he
      · rintro ⟨ho, -⟩
        exact absurd ((occursAt_nil pat i).mp ho) h
  | cons c s ih =>
    simp only [findFirst]
    by_cases h : (c :: s).take pat.length = pat
    · rw [if_pos h]
      have h0 : occursAt pat (c :: s) 0 := by simpa [occursAt] using h
      constructor
      · intro he
        have hi : i = 0 := by
          have := Option.some.inj he; omega
        subst hi
        exact ⟨h0, by omega⟩
      · rintro ⟨-, hmin⟩
        rcases Nat.eq_zero_or_pos i with rfl | hi
        · rfl
        · exact absurd h0 (hmin 0 hi)
    · rw [if_neg h]
      have h0 : ¬ occursAt pat (c :: s) 0 := by simpa [occursAt] using h
      cases i with
      | zero =>
        simp only [Option.map_eq_some']
        constructor
        · rintro ⟨a, -, ha⟩; omega
        · rintro ⟨ho, -⟩; exact absurd ho h0
      | succ m =>
        simp only [Option.map_eq_some']
        constructor
        · rintro ⟨a, hfa, ha⟩
          have ham : a = m := by omega
          rw [ham] at hfa
          obtain ⟨ho, hmin⟩ := (ih m).mp hfa
          refine ⟨(occursAt_succ_cons pat c s m).mpr ho, ?_⟩
          rw [forall_lt_succ_split]
          exact ⟨h0, fun j hj hoj =>
            hmin j hj ((occursAt_succ_cons pat c s j).mp hoj)⟩
        · rintro ⟨ho, hmin⟩
          rw [forall_lt_succ_split] at hmin
          refine ⟨m, (ih m).mpr ⟨(occursAt_succ_cons pat c s m).mp ho, ?_⟩, rfl⟩
          exact fun j hj hoj =>
            hmin.2 j hj ((occursAt_succ_cons pat c s j).mpr hoj)

lemma findFirst_eq_none_iff (pat s : List Char) :
    findFirst pat s = none ↔ ∀ k, ¬ occursAt pat s k := by
  induction s with
  | nil =>
    simp only [findFirst]
    by_cases h : ([] : List Char).take pat.length = pat
    · rw [if_pos h]
      simp only [reduceCtorEq, false_iff, not_forall, not_not]
      exact ⟨0, (occursAt_nil pat 0).mpr h⟩
    · rw [if_neg h]
      simp only [true_iff]
      exact fun k hk => h ((occursAt_nil pat k).mp hk)
  | cons c s ih =>
    simp only [findFirst]
    by_cases h : (c :: s).take pat.length = pat
    · rw [if_pos h]
      have h0 : occursAt pat (c :: s) 0 := by simpa [occursAt] using h
      simp only [reduceCtorEq, false_iff, not_forall, not_not]
      exact ⟨0, h0⟩
    · rw [if_neg h]
      have h0 : ¬ occursAt pat (c :: s) 0 := by simpa [occursAt] using h
      simp only [Option.map_eq_none', ih]
      constructor
      · intro hall k
        cases k with
        | zero => exact h0
        | succ m => exact fun ho => hall m ((occursAt_succ_cons pat c s m).mp ho)
      · intro hall k ho
        exact hall (k + 1) ((occursAt_succ_cons pat c s k).mpr ho)

lemma findLast_eq_none_iff (pat s : List Char) :
    findLast pat s = none ↔ ∀ k, ¬ occursAt pat s k := by
  induction s with
  | nil =>
    simp only [findLast]
    by_cases h : ([] : List Char).take pat.length = pat
    · rw [if_pos h]
      simp only [reduceCtorEq, false_iff, not_forall, not_not]
      exact ⟨0, (occursAt_nil pat 0).mpr h⟩
    · rw [if_neg h]
      simp only [true_iff]
      exact fun k hk => h ((occursAt_nil pat k).mp hk)
  | cons c s ih =>
    simp only [findLast]
    cases hfl : findLast pat s with
    | some m =>
      simp only [reduceCtorEq, false_iff, not_forall, not_not]
      have : ¬ (∀ k, ¬ occursAt pat s k) := by
        intro hall; rw [← ih] at hall; rw [hfl] at hall; cases hall
      push_neg at this
      obtain ⟨k, hk⟩ := this
      exact ⟨k + 1, (occursAt_succ_cons pat c s k).mpr hk⟩
    | none =>
      have hall : ∀ k, ¬ occursAt pat s k := ih.mp hfl
      by_cases h : (c :: s).take pat.length = pat
      · rw [if_pos h]
        have h0 : occursAt pat (c :: s) 0 := by simpa [occursAt] using h
        simp only [reduceCtorEq, false_iff, not_forall, not_not]
        exact ⟨0, h0⟩
      · rw [if_neg h]
        have h0 : ¬ occursAt pat (c :: s) 0 := by simpa [occursAt] using h
        simp only [true_iff]
        intro k
        cases k with
        | zero => exact h0
        | succ m => exact fun ho => hall m ((occursAt_succ_cons pat c s m).mp ho)

lemma findLast_eq_some_iff (pat s : List Char) (j : ℕ) (hp : pat ≠ []) :
    findLast pat s = some j ↔ occursAt pat s j ∧ ∀ k, occursAt pat s k → k ≤ j := by
  induction s generalizing j with
  | nil =>
    simp only [findLast]
    have h : ¬ ([] : List Char).take pat.length = pat := by
      simp only [List.take_nil]
      exact fun h => hp h.symm
    rw [if_neg h]
    constructor
    · intro he; cases he
    · rintro ⟨ho, -⟩
      exact absurd ((occursAt_nil pat j).mp ho) h
  | cons c s ih =>
    simp only [findLast]
    cases hfl : findLast pat s with
    | some m =>
      obtain ⟨hom, hmax⟩ := (ih m).mp hfl
      constructor
      · intro he
        have hj : j = m + 1 := (Option.some.inj he).symm
        subst hj
        refine ⟨(occursAt_succ_cons pat c s m).mpr hom, ?_⟩
        intro k hk
        cases k with
        | zero => omega
        | succ k' =>
          have := hmax k' ((occursAt_succ_cons pat c s k').mp hk)
          omega
      · rintro ⟨hoj, hmaxj⟩
        have h1 : m + 1 ≤ j := hmaxj (m + 1) ((occursAt_succ_cons pat c s m).mpr hom)
        cases j with
        | zero => omega
        | succ j' =>
          have h2 : j' ≤ m := hmax j' ((occursAt_succ_cons pat c s j').mp hoj)
          have : j' = m := by omega
          subst this; rfl
    | none =>
      have hall : ∀ k, ¬ occursAt pat s k := (findLast_eq_none_iff pat s).mp hfl
      by_cases h : (c :: s).take pat.length = pat
      · rw [if_pos h]
        have h0 : occursAt pat (c :: s) 0 := by simpa [occursAt] using h
        constructor
        · intro he
          have hj : j = 0 := (Option.some.inj he).symm
          subst hj
          refine ⟨h0, ?_⟩
          intro k hk
          cases k with
          | zero => omega
          | succ m => exact absurd ((occursAt_succ_cons pat c s m).mp hk) (hall m)
        · rintro ⟨hoj, -⟩
          cases j with
          | zero => rfl
          | succ j' => exact absurd ((occursAt_succ_cons pat c s j').mp hoj) (hall j')
      · rw [if_neg h]
        have h0 : ¬ occursAt pat (c :: s) 0 := by simpa [occursAt] using h
        constructor
        · intro he; cases he
        · rintro ⟨hoj, -⟩
          cases j with
          | zero => exact absurd hoj h0
          | succ j' => exact absurd ((occursAt_succ_cons pat c s j').mp hoj) (hall j')

/-! ## Lemmas: transfer of occurrences across splicing -/

lemma occursAt_congr_take (pat s t : List Char) (n k : ℕ)
    (h : s.take n = t.take n) (hk : k + pat.length ≤ n) :
    occursAt pat s k ↔ occursAt pat t k := by
  have key : ∀ u : List Char, (u.drop k).take pat.length
      = ((u.take n).drop k).take pat.length := by
    intro u
    rw [List.drop_take, List.take_take]
    congr 1
    omega
  unfold occursAt
  rw [key s, key t, h]

lemma occursAt_congr_drop (pat s t : List Char) (a b o : ℕ)
    (h : s.drop a = t.drop b) :
    occursAt pat s (a + o) ↔ occursAt pat t (b + o) := by
  unfold occursAt
  have hs : List.drop (a + o) s = List.drop o (List.drop a s) := by
    rw [List.drop_drop]
  have ht : List.drop (b + o) t = List.drop o (List.drop b t) := by
    rw [List.drop_drop]
  rw [hs, ht, h]

lemma occursAt_drop_decomp (pat s : List Char) (i : ℕ) (h : occursAt pat s i) :
    s.drop i = pat ++ s.drop (i + pat.length) := by
  conv_lhs => rw [← List.take_append_drop pat.length (s.drop i)]
  unfold occursAt at h
  rw [h, List.drop_drop]

/-! ## Lemmas: literal templates -/

lemma expandRepl_map_lit (l m : List Char) : expandRepl (l.map .lit) m = l := by
  induction l with
  | nil => rfl
  | cons c cs ih => simp [expandRepl, ih]

lemma parseReplAux_literal (fuel : ℕ) (l : List Char) (hf : l.length < fuel)
    (hb : '\\' ∉ l) : parseReplAux fuel l = some (l.map .lit) := by
  induction fuel generalizing l with
  | zero => omega
  | succ f ih =>
    cases l with
    | nil => rfl
    | cons c rs =>
      have hc : ¬ c = '\\' := fun h => hb (by rw [h]; exact List.mem_cons_self _ _)
      have hrs : '\\' ∉ rs := fun h => hb (List.mem_cons_of_mem _ h)
      simp only [parseReplAux, if_neg hc]
      rw [ih rs (by simpa using Nat.lt_of_succ_lt_succ (by simpa using hf)) hrs]
      rfl

lemma parseRepl_literal (l : List Char) (hb : '\\' ∉ l) :
    parseRepl l = some (l.map .lit) :=
  parseReplAux_literal (l.length + 1) l (by omega) hb

/-! ## Lemmas: the greedy span and its reconstruction after one substitution -/

lemma findSpan_inv (sm em doc : List Char) (i j : ℕ)
    (h : findSpan sm em doc = some (i, j)) :
    findFirst sm doc = some i ∧ findLast em doc = some j ∧ i + sm.length + 1 ≤ j := by
  unfold findSpan at h
  cases hf : findFirst sm doc with
  | none => rw [hf] at h; simp at h
  | some i' =>
    cases hl : findLast em doc with
    | none => rw [hf, hl] at h; simp at h
    | some j' =>
      rw [hf, hl] at h
      simp only [] at h
      by_cases hg : i' + sm.length + 1 ≤ j'
      · simp only [if_pos hg, Option.some.injEq, Prod.mk.injEq] at h
        obtain ⟨h1, h2⟩ := h
        subst h1; subst h2
        exact ⟨rfl, rfl, hg⟩
      · simp only [if_neg hg] at h
        exact Option.noConfusion h

lemma findSpan_build (sm em doc : List Char) (i j : ℕ)
    (hf : findFirst sm doc = some i) (hl : findLast em doc = some j)
    (hg : i + sm.length + 1 ≤ j) : findSpan sm em doc = some (i, j) := by
  unfold findSpan
  rw [hf, hl]
  simp [hg]

lemma reSub_literal_splice (sm em T doc : List Char) (i j : ℕ)
    (hT : parseRepl T = some (T.map .lit))
    (hspan : findSpan sm em doc = some (i, j)) :
    reSub sm em T doc = some (doc.take i ++ T ++ doc.drop (j + em.length)) := by
  unfold reSub
  rw [hT, hspan]
  simp [expandRepl_map_lit]

lemma reSub_literal_nospan (sm em T doc : List Char)
    (hT : parseRepl T = some (T.map .lit))
    (hspan : findSpan sm em doc = none) :
    reSub sm em T doc = some doc := by
  unfold reSub
  rw [hT, hspan]

lemma take_append_length (A X : List Char) (n : ℕ) (h : A.length = n) :
    (A ++ X).take n = A := by
  subst h
  exact List.take_left ..

lemma drop_append_length (A X : List Char) (n : ℕ) (h : A.length = n) :
    (A ++ X).drop n = X := by
  subst h
  exact List.drop_left ..

lemma findSpan_splice (sm em B doc : List Char) (i j : ℕ)
    (hsm : sm ≠ []) (hem : em ≠ [])
    (hspan : findSpan sm em doc = some (i, j)) :
    findSpan sm em
        (doc.take i ++ (sm ++ '\n' :: (B ++ '\n' :: em)) ++ doc.drop (j + em.length))
      = some (i, i + sm.length + 1 + B.length + 1) := by
  obtain ⟨hf, hl, hgap⟩ := findSpan_inv sm em doc i j hspan
  obtain ⟨hocc_s, hmin⟩ := (findFirst_eq_some_iff sm doc i).mp hf
  obtain ⟨hocc_e, hmax⟩ := (findLast_eq_some_iff em doc j hem).mp hl
  have hi_le : i + sm.length ≤ doc.length := occursAt_length sm doc i hsm hocc_s
  have len_take_i : (doc.take i).length = i := by
    rw [List.length_take]; omega
  have hshape :
      doc.take i ++ (sm ++ '\n' :: (B ++ '\n' :: em)) ++ doc.drop (j + em.length)
        = (doc.take i ++ (sm ++ '\n' :: (B ++ ['\n'])))
            ++ (em ++ doc.drop (j + em.length)) := by
    simp [List.append_assoc]
  have hlen_pre : (doc.take i ++ (sm ++ '\n' :: (B ++ ['\n']))).length
      = i + sm.length + 1 + B.length + 1 := by
    simp [List.length_append, len_take_i]
    omega
  have htake_doc : doc.take (i + sm.length) = doc.take i ++ sm := by
    have hs : (doc.drop i).take sm.length = sm := hocc_s
    rw [List.take_add, hs]
  have htake_res :
      (doc.take i ++ (sm ++ '\n' :: (B ++ '\n' :: em)) ++ doc.drop (j + em.length)).take
          (i + sm.length)
        = doc.take i ++ sm := by
    rw [List.append_assoc, List.take_append_eq_append_take, len_take_i,
      List.take_take, show min (i + sm.length) i = i by omega,
      show i + sm.length - i = sm.length by omega,
      List.append_assoc, take_append_length sm _ sm.length rfl]
  have htake_eq :
      (doc.take i ++ (sm ++ '\n' :: (B ++ '\n' :: em)) ++ doc.drop (j + em.length)).take
          (i + sm.length)
        = doc.take (i + sm.length) := htake_res.trans htake_doc.symm
  have hdrop_doc : doc.drop j = em ++ doc.drop (j + em.length) :=
    occursAt_drop_decomp em doc j hocc_e
  have hdrop_res :
      (doc.take i ++ (sm ++ '\n' :: (B ++ '\n' :: em)) ++ doc.drop (j + em.length)).drop
          (i + sm.length + 1 + B.length + 1)
        = em ++ doc.drop (j + em.length) := by
    rw [hshape]
    exact drop_append_length _ _ _ hlen_pre
  have hdrop_eq :
      (doc.take i ++ (sm ++ '\n' :: (B ++ '\n' :: em)) ++ doc.drop (j + em.length)).drop
          (i + sm.length + 1 + B.length + 1)
        = doc.drop j := hdrop_res.trans hdrop_doc.symm
  have hocc_s' : occursAt sm
      (doc.take i ++ (sm ++ '\n' :: (B ++ '\n' :: em)) ++ doc.drop (j + em.length)) i :=
    (occursAt_congr_take sm _ doc (i + sm.length) i htake_eq (by omega)).mpr hocc_s
  have hmin' : ∀ k < i, ¬ occursAt sm
      (doc.take i ++ (sm ++ '\n' :: (B ++ '\n' :: em)) ++ doc.drop (j + em.length)) k := by
    intro k hk hko
    exact hmin k hk
      ((occursAt_congr_take sm _ doc (i + sm.length) k htake_eq (by omega)).mp hko)
  have hf' : findFirst sm
      (doc.take i ++ (sm ++ '\n' :: (B ++ '\n' :: em)) ++ doc.drop (j + em.length))
        = some i :=
    (findFirst_eq_some_iff sm _ i).mpr ⟨hocc_s', hmin'⟩
  have hocc_e' : occursAt em
      (doc.take i ++ (sm ++ '\n' :: (B ++ '\n' :: em)) ++ doc.drop (j + em.length))
      (i + sm.length + 1 + B.length + 1) := by
    have h0 := (occursAt_congr_drop em _ doc
      (i + sm.length + 1 + B.length + 1) j 0 hdrop_eq).mpr
    simpa using h0 (by simpa using hocc_e)
  have hmax' : ∀ k, occursAt em
      (doc.take i ++ (sm ++ '\n' :: (B ++ '\n' :: em)) ++ doc.drop (j + em.length)) k
        → k ≤ i + sm.length + 1 + B.length + 1 := by
    intro k hk
    by_contra hgt
    push_neg at hgt
    obtain ⟨o, rfl⟩ : ∃ o, k = i + sm.length + 1 + B.length + 1 + o :=
      ⟨k - (i + sm.length + 1 + B.length + 1), by omega⟩
    have hko : occursAt em doc (j + o) :=
      (occursAt_congr_drop em _ doc (i + sm.length + 1 + B.length + 1) j o hdrop_eq).mp hk
    have := hmax (j + o) hko
    omega
  have hl' : findLast em
      (doc.take i ++ (sm ++ '\n' :: (B ++ '\n' :: em)) ++ doc.drop (j + em.length))
        = some (i + sm.length + 1 + B.length + 1) :=
    (findLast_eq_some_iff em _ _ hem).mpr ⟨hocc_e', hmax'⟩
  exact findSpan_build sm em _ _ _ hf' hl' (by omega)

/-! ## Lemmas: the markers -/

lemma startComment_ne_nil (name : List Char) : startComment name ≠ [] := by
  unfold startComment
  intro h
  have hl := congrArg List.length h
  simp [List.length_append] at hl

lemma endComment_ne_nil (name : List Char) : endComment name ≠ [] := by
  unfold endComment
  intro h
  have hl := congrArg List.length h
  simp [List.length_append] at hl

lemma backslash_not_mem_startComment (name : List Char) (hn : '\\' ∉ name) :
    '\\' ∉ startComment name := by
  unfold startComment
  simp only [List.mem_append, not_or]
  exact ⟨⟨by decide, hn⟩, by decide⟩

lemma backslash_not_mem_endComment (name : List Char) (hn : '\\' ∉ name) :
    '\\' ∉ endComment name := by
  unfold endComment
  simp only [List.mem_append, not_or]
  exact ⟨⟨by decide, hn⟩, by decide⟩

lemma backslash_not_mem_replacementFor (name stats : List Char)
    (hn : '\\' ∉ name) (hs : '\\' ∉ stats) :
    '\\' ∉ replacementFor name stats := by
  unfold replacementFor
  intro h
  rcases List.mem_append.mp h with h | h
  · exact backslash_not_mem_startComment name hn h
  · rcases List.mem_cons.mp h with h | h
    · exact absurd h (by decide)
    · rcases List.mem_append.mp h with h | h
      · exact hs h
      · rcases List.mem_cons.mp h with h | h
        · exact absurd h (by decide)
        · exact backslash_not_mem_endComment name hn h

/-- After one successful substitution with a backslash-free body, the
document is a fixed point of the substitution. -/
lemma reSub_splice_fixed (sm em B doc : List Char) (i j : ℕ)
    (hsm : sm ≠ []) (hem : em ≠ [])
    (hT : parseRepl (sm ++ '\n' :: (B ++ '\n' :: em))
      = some ((sm ++ '\n' :: (B ++ '\n' :: em)).map .lit))
    (hspan : findSpan sm em doc = some (i, j)) :
    reSub sm em (sm ++ '\n' :: (B ++ '\n' :: em))
        (doc.take i ++ (sm ++ '\n' :: (B ++ '\n' :: em)) ++ doc.drop (j + em.length))
      = some (doc.take i ++ (sm ++ '\n' :: (B ++ '\n' :: em)) ++ doc.drop (j + em.length)) := by
  obtain ⟨hf, hl, hgap⟩ := findSpan_inv sm em doc i j hspan
  obtain ⟨hocc_s, -⟩ := (findFirst_eq_some_iff sm doc i).mp hf
  have hi_le : i + sm.length ≤ doc.length := occursAt_length sm doc i hsm hocc_s
  have len_take_i : (doc.take i).length = i := by
    rw [List.length_take]; omega
  have hsp2 := findSpan_splice sm em B doc i j hsm hem hspan
  rw [reSub_literal_splice _ _ _ _ _ _ hT hsp2]
  have ht1 :
      (doc.take i ++ (sm ++ '\n' :: (B ++ '\n' :: em)) ++ doc.drop (j + em.length)).take i
        = doc.take i := by
    rw [List.append_assoc]
    exact take_append_length _ _ _ len_take_i
  have ht2 :
      (doc.take i ++ (sm ++ '\n' :: (B ++ '\n' :: em)) ++ doc.drop (j + em.length)).drop
          (i + sm.length + 1 + B.length + 1 + em.length)
        = doc.drop (j + em.length) := by
    exact drop_append_length (doc.take i ++ (sm ++ '\n' :: (B ++ '\n' :: em))) _ _
      (by simp [List.length_append, len_take_i]; omega)
  rw [ht1, ht2]

/-- C2 (amended), general form: re-applying `update_readme` with the same
backslash-free body is a no-op that reports `changed = false`. -/
theorem update_readme_idempotent (name stats doc doc1 : List Char) (b : Bool)
    (hn : '\\' ∉ name) (hs : '\\' ∉ stats)
    (h : update_readme name stats doc = some (doc1, b)) :
    update_readme name stats doc1 = some (doc1, false) := by
  have hT : parseRepl (replacementFor name stats)
      = some ((replacementFor name stats).map .lit) :=
    parseRepl_literal _ (backslash_not_mem_replacementFor name stats hn hs)
  unfold update_readme at h
  rw [Option.map_eq_some'] at h
  obtain ⟨nr, hgen, hpair⟩ := h
  have hnr : nr = doc1 := congrArg Prod.fst hpair
  unfold generate_new_readme at hgen
  unfold update_readme generate_new_readme
  cases hsp : findSpan (startComment name) (endComment name) doc with
  | none =>
    rw [reSub_literal_nospan _ _ _ _ hT hsp] at hgen
    have hdoc : doc = nr := Option.some.inj hgen
    rw [← hnr, ← hdoc, reSub_literal_nospan _ _ _ _ hT hsp]
    simp
  | some ij =>
    obtain ⟨i, j⟩ := ij
    rw [reSub_literal_splice _ _ _ _ _ _ hT hsp] at hgen
    have hres : doc.take i ++ replacementFor name stats
        ++ doc.drop (j + (endComment name).length) = nr := Option.some.inj hgen
    have hfix := reSub_splice_fixed (startComment name) (endComment name) stats doc i j
      (startComment_ne_nil name) (endComment_ne_nil name) hT hsp
    rw [← hnr, ← hres]
    rw [show (replacementFor name stats : List Char)
      = startComment name ++ '\n' :: (stats ++ '\n' :: endComment name) from rfl] at hres ⊢
    rw [hfix]
    simp

/-- C2 witness: a concrete document in which one application changes the
README and the second application reports no change. -/
theorem update_readme_idempotent_witness :
    update_readme "w".toList "hello".toList
        "before <!--START_SECTION:w-->\nhello\n<!--END_SECTION:w--> after".toList
      = some ("before <!--START_SECTION:w-->\nhello\n<!--END_SECTION:w--> after".toList,
          false) :=
  update_readme_idempotent "w".toList "hello".toList
    "before <!--START_SECTION:w-->x<!--END_SECTION:w--> after".toList
    "before <!--START_SECTION:w-->\nhello\n<!--END_SECTION:w--> after".toList true
    (by decide) (by decide) (by decide)

/-- C2 counterexample: a body containing the template escape `\g<0>` is
re-expanded by `re.sub` on every application, so the second application of
the identical body still reports `changed = true`. -/
theorem update_readme_idempotent_cex :
    update_readme "w".toList "\\g<0>".toList
        "<!--START_SECTION:w-->x<!--END_SECTION:w-->".toList
      = some
        ("<!--START_SECTION:w-->\n<!--START_SECTION:w-->x<!--END_SECTION:w-->\n<!--END_SECTION:w-->".toList,
          true)
    ∧ (update_readme "w".toList "\\g<0>".toList
        "<!--START_SECTION:w-->\n<!--START_SECTION:w-->x<!--END_SECTION:w-->\n<!--END_SECTION:w-->".toList).map
          Prod.snd
      = some true := by
  constructor
  · decide
  · decide

/-- C1 (amended): when the marker pair is absent, `update_readme` returns
the original document with `changed = false` — indistinguishable from the
"no change needed" outcome; no structured MarkerNotFound failure exists. -/
theorem update_readme_marker_missing (name stats doc : List Char)
    (hn : '\\' ∉ name) (hs : '\\' ∉ stats)
    (hnone : findFirst (startComment name) doc = none
      ∨ findLast (endComment name) doc = none) :
    update_readme name stats doc = some (doc, false) := by
  have hT : parseRepl (replacementFor name stats)
      = some ((replacementFor name stats).map .lit) :=
    parseRepl_literal _ (backslash_not_mem_replacementFor name stats hn hs)
  have hsp : findSpan (startComment name) (endComment name) doc = none := by
    unfold findSpan
    rcases hnone with h | h
    · rw [h]
    · rw [h]
      cases findFirst (startComment name) doc <;> rfl
  unfold update_readme generate_new_readme
  rw [reSub_literal_nospan _ _ _ _ hT hsp]
  simp

/-- C1 witness: a document without the markers comes back unchanged with
`changed = false` via the amended theorem. -/
theorem update_readme_marker_missing_witness :
    update_readme "waka".toList "stats body".toList
        "a readme with no managed section".toList
      = some ("a readme with no managed section".toList, false) :=
  update_readme_marker_missing "waka".toList "stats body".toList
    "a readme with no managed section".toList
    (by decide) (by decide) (Or.inl (by decide))

/-- C1 counterexample: for a document without the marker pair the result
is exactly the pair (original document, changed = false), which the claim
says must not be the outcome. -/
theorem update_readme_marker_missing_cex :
    update_readme "waka".toList "new stats".toList "plain document".toList
      = some ("plain document".toList, false) := by
  decide

/-- C5 (amended): for a backslash-free body, the produced document
contains the body verbatim between the literal start and end markers. -/
theorem generate_new_readme_roundtrip (name stats doc : List Char) (i j : ℕ)
    (hn : '\\' ∉ name) (hs : '\\' ∉ stats)
    (hspan : findSpan (startComment name) (endComment name) doc = some (i, j)) :
    ∃ p q, generate_new_readme name stats doc
      = some (p ++ (startComment name ++ '\n' :: (stats ++ '\n' :: endComment name)) ++ q) := by
  refine ⟨doc.take i, doc.drop (j + (endComment name).length), ?_⟩
  have hT : parseRepl (replacementFor name stats)
      = some ((replacementFor name stats).map .lit) :=
    parseRepl_literal _ (backslash_not_mem_replacementFor name stats hn hs)
  unfold generate_new_readme
  exact reSub_literal_splice _ _ _ _ _ _ hT hspan

/-- C5 witness: the amended round-trip at a concrete document. -/
theorem generate_new_readme_roundtrip_witness :
    ∃ p q, generate_new_readme "w".toList "body".toList
        "<!--START_SECTION:w-->x<!--END_SECTION:w-->".toList
      = some (p ++ (startComment "w".toList
          ++ '\n' :: ("body".toList ++ '\n' :: endComment "w".toList)) ++ q) :=
  generate_new_readme_roundtrip "w".toList "body".toList
    "<!--START_SECTION:w-->x<!--END_SECTION:w-->".toList 0 23
    (by decide) (by decide) (by decide)

/-- C5 counterexample: with the body `\g<0>` the produced document does
not contain the body anywhere (let alone between the markers) — the
template expansion replaced it by the old matched span. -/
theorem generate_new_readme_roundtrip_cex :
    (generate_new_readme "w".toList "\\g<0>".toList
        "<!--START_SECTION:w-->x<!--END_SECTION:w-->".toList).isSome = true
    ∧ findFirst "\\g<0>".toList
        ((generate_new_readme "w".toList "\\g<0>".toList
          "<!--START_SECTION:w-->x<!--END_SECTION:w-->".toList).getD [])
      = none := by
  constructor
  · decide
  · decide

/-! ## Lemmas: rounding -/

lemma rndHalfEven_nonneg (q : ℚ) (h : 0 ≤ q) : 0 ≤ rndHalfEven q := by
  unfold rndHalfEven
  have hf : (0:ℤ) ≤ ⌊q⌋ := Int.floor_nonneg.mpr h
  dsimp only
  split_ifs <;> omega

lemma rndHalfEven_le (q : ℚ) (B : ℤ) (h : q ≤ (B:ℚ)) : rndHalfEven q ≤ B := by
  unfold rndHalfEven
  have hfB : ⌊q⌋ ≤ B := by
    have h2 : ⌊q⌋ ≤ ⌊(B:ℚ)⌋ := Int.floor_le_floor h
    simpa using h2
  have hfl : (⌊q⌋ : ℚ) ≤ q := Int.floor_le q
  dsimp only
  split_ifs with h1 h2 h3
  · exact hfB
  · have hlt : (⌊q⌋ : ℚ) < q := by linarith
    have hltB : (⌊q⌋ : ℚ) < (B:ℚ) := lt_of_lt_of_le hlt h
    have : ⌊q⌋ < B := by exact_mod_cast hltB
    omega
  · exact hfB
  · have hge : (1:ℚ)/2 ≤ q - ⌊q⌋ := by linarith
    have hlt : (⌊q⌋ : ℚ) < q := by linarith
    have : ⌊q⌋ < B := by exact_mod_cast lt_of_lt_of_le hlt h
    omega

lemma rndHalfEven_intCast (z : ℤ) : rndHalfEven ((z:ℚ)) = z := by
  unfold rndHalfEven
  rw [Int.floor_intCast]
  rw [if_pos (by norm_num)]

/-! ## Lemmas: the progress bar -/

lemma make_graph_length (syms : Char × Char) (p : ℚ) (h0 : 0 ≤ p) (h1 : p ≤ 100) :
    (make_graph syms p).length = 25 := by
  unfold make_graph
  have hq0 : 0 ≤ rndHalfEven (p / 4) := rndHalfEven_nonneg _ (by positivity)
  have hq25 : rndHalfEven (p / 4) ≤ 25 := rndHalfEven_le _ 25 (by push_cast; linarith)
  simp only [List.length_append, List.length_replicate]
  omega

/-- C4: for percent in [0,100] the bar is exactly 25 characters, with
`round(p/4)` (round half to even) filled glyphs and the rest empty; in
particular `make_graph 100` is all-filled and `make_graph 0` all-empty. -/
theorem make_graph_spec (syms : Char × Char) (p : ℚ)
    (hne : syms.1 ≠ syms.2) (h0 : 0 ≤ p) (h1 : p ≤ 100) :
    (make_graph syms p).length = 25
    ∧ ((make_graph syms p).count syms.1 : ℤ) = rndHalfEven (p / 4)
    ∧ ((make_graph syms p).count syms.2 : ℤ) = 25 - rndHalfEven (p / 4)
    ∧ make_graph syms 100 = List.replicate 25 syms.1
    ∧ make_graph syms 0 = List.replicate 25 syms.2 := by
  have hq0 : 0 ≤ rndHalfEven (p / 4) := rndHalfEven_nonneg _ (by positivity)
  have hq25 : rndHalfEven (p / 4) ≤ 25 := rndHalfEven_le _ 25 (by push_cast; linarith)
  refine ⟨make_graph_length syms p h0 h1, ?_, ?_, ?_, ?_⟩
  · unfold make_graph
    rw [List.count_append]
    simp only [List.count_replicate]
    simp only [beq_iff_eq, if_pos, if_neg (Ne.symm hne), if_true, reduceIte]
    omega
  · unfold make_graph
    rw [List.count_append]
    simp only [List.count_replicate]
    simp only [beq_iff_eq, if_neg hne, reduceIte]
    omega
  · unfold make_graph
    rw [show (100:ℚ)/4 = ((25:ℤ):ℚ) by norm_num, rndHalfEven_intCast]
    simp
  · unfold make_graph
    rw [show (0:ℚ)/4 = ((0:ℤ):ℚ) by norm_num, rndHalfEven_intCast]
    simp

/-- C4 witness: the theorem instantiated with the version-1 glyph pair at
percent 50. -/
theorem make_graph_spec_witness :
    (make_graph sym1 50).length = 25
    ∧ ((make_graph sym1 50).count sym1.1 : ℤ) = rndHalfEven (50 / 4)
    ∧ ((make_graph sym1 50).count sym1.2 : ℤ) = 25 - rndHalfEven (50 / 4)
    ∧ make_graph sym1 100 = List.replicate 25 sym1.1
    ∧ make_graph sym1 0 = List.replicate 25 sym1.2 :=
  make_graph_spec sym1 50 (by decide) (by norm_num) (by norm_num)

/-! ## Lemmas: decimal rendering widths -/

lemma natDigitsAux_small (fuel n : ℕ) (h : n < 10) :
    natDigitsAux (fuel + 1) n = [Nat.digitChar n] := by
  simp [natDigitsAux, h]

lemma natDigits_length_small (n : ℕ) (h : n < 10) : (natDigits n).length = 1 := by
  unfold natDigits
  rw [natDigitsAux_small n n h]
  rfl

lemma natDigits_length_two (n : ℕ) (h1 : 10 ≤ n) (h2 : n < 100) :
    (natDigits n).length = 2 := by
  obtain ⟨m, rfl⟩ : ∃ m, n = m + 1 := ⟨n - 1, by omega⟩
  unfold natDigits
  have hstep : natDigitsAux (m + 1 + 1) (m + 1)
      = natDigitsAux (m + 1) ((m + 1) / 10) ++ [Nat.digitChar ((m + 1) % 10)] := by
    simp [natDigitsAux, show ¬ m + 1 < 10 by omega]
  rw [hstep, natDigitsAux_small m ((m + 1) / 10) (by omega)]
  rfl

lemma pad2_length (n : ℕ) (h : n < 100) : (pad2 n).length = 2 := by
  unfold pad2
  by_cases h10 : n < 10
  · rw [if_pos h10]
    simp [natDigits_length_small n h10]
  · rw [if_neg h10]
    exact natDigits_length_two n (by omega) h

lemma joinLines_singleton (x : List Char) : joinLines [x] = x := by
  simp [joinLines, List.intercalate]

lemma padLeftZeros_length (w : ℕ) (s : List Char) :
    (padLeftZeros w s).length = max w s.length := by
  unfold padLeftZeros
  simp only [List.length_append, List.length_replicate]
  omega

lemma fmtPct_length (q : ℚ) (h0 : 0 ≤ q) (hle : rndHalfEven (100 * q) ≤ 10000) :
    (fmtPct q).length = if rndHalfEven (100 * q) = 10000 then 6 else 5 := by
  unfold fmtPct
  have hnn : 0 ≤ rndHalfEven (100 * q) := rndHalfEven_nonneg _ (by positivity)
  dsimp only
  rw [if_neg (by omega), padLeftZeros_length]
  unfold hundredthsStr
  by_cases h4 : rndHalfEven (100 * q) = 10000
  · rw [if_pos h4]
    have ha : (rndHalfEven (100 * q)).natAbs = 10000 := by omega
    rw [ha]
    decide
  · rw [if_neg h4]
    have h99 : (rndHalfEven (100 * q)).natAbs / 100 ≤ 99 := by omega
    have hp2 : (pad2 ((rndHalfEven (100 * q)).natAbs % 100)).length = 2 :=
      pad2_length _ (by omega)
    have hd : (natDigits ((rndHalfEven (100 * q)).natAbs / 100)).length = 1
        ∨ (natDigits ((rndHalfEven (100 * q)).natAbs / 100)).length = 2 := by
      by_cases hsmall : (rndHalfEven (100 * q)).natAbs / 100 < 10
      · exact Or.inl (natDigits_length_small _ hsmall)
      · exact Or.inr (natDigits_length_two _ (by omega) (by omega))
    simp only [List.length_append, List.length_cons, hp2]
    rcases hd with hd | hd <;> rw [hd] <;> omega

/-- C3 (amended): each rendered line has width
`25 + max(len(text), 20) + 25 + 3 + W + 3`, where `W` is the width of the
`%05.2f` percent field — 5 when the value rounded to hundredths is below
100.00 and 6 at 100.00.  In particular the typical width is 81 (not 82):
the percent field of values below 100 is 5 characters, and a text longer
than 20 characters widens the line because the text is padded but never
truncated (only the name is truncated, to 25). -/
theorem formatLine_width (syms : Char × Char) (n t : List Char) (p : ℚ)
    (h0 : 0 ≤ p) (h1 : p ≤ 100) :
    (formatLine syms n t p).length
      = 25 + max t.length 20 + 25 + 3 + (fmtPct p).length + 3
    ∧ (fmtPct p).length = (if rndHalfEven (100 * p) = 10000 then 6 else 5) := by
  have hle : rndHalfEven (100 * p) ≤ 10000 :=
    rndHalfEven_le _ 10000 (by push_cast; linarith)
  refine ⟨?_, fmtPct_length p h0 hle⟩
  unfold formatLine
  have h3 : ("   ".toList).length = 3 := rfl
  have h4 : (" % ".toList).length = 3 := rfl
  simp only [List.length_append, List.length_take, List.length_replicate,
    make_graph_length syms p h0 h1, h3, h4]
  omega

/-- C3 witness: the width formula at a concrete name/text/percent. -/
theorem formatLine_width_witness :
    (formatLine sym1 "Python".toList "3 repos".toList 75).length
      = 25 + max ("3 repos".toList).length 20 + 25 + 3 + (fmtPct 75).length + 3
    ∧ (fmtPct 75).length = (if rndHalfEven (100 * 75) = 10000 then 6 else 5) :=
  formatLine_width sym1 "Python".toList "3 repos".toList 75 (by norm_num) (by norm_num)

/-- C3 counterexample: a line produced by `make_list` with a percent in
[0,100] has width 81, not 82. -/
theorem formatLine_width_cex :
    (make_list sym1 [['a']] [['b']] [(0:ℚ)] 5 true).length = 81 := by
  have e : make_list sym1 [['a']] [['b']] [(0:ℚ)] 5 true
      = joinLines [formatLine sym1 ['a'] ['b'] 0] := rfl
  rw [e, joinLines_singleton]
  have hg : make_graph sym1 0 = List.replicate 25 sym1.2 := by
    unfold make_graph
    rw [show (0:ℚ)/4 = ((0:ℤ):ℚ) by norm_num, rndHalfEven_intCast]
    simp
  have hf : fmtPct 0 = "00.00".toList := by
    unfold fmtPct
    rw [show (100:ℚ) * 0 = ((0:ℤ):ℚ) by norm_num, rndHalfEven_intCast]
    decide
  unfold formatLine
  rw [hg, hf]
  decide

/-! ## The percentage normalizer -/

/-- C8: the percentage normalization is `round(count / total * 100, 2)`
and lies in [0, 100] whenever `0 < total` and `count ≤ total`. -/
theorem percentOf_bounds (count total : ℕ) (h0 : 0 < total) (hle : count ≤ total) :
    percentOf count total = pyRound2 ((count : ℚ) / (total : ℚ) * 100)
    ∧ 0 ≤ percentOf count total ∧ percentOf count total ≤ 100 := by
  have ht : (0:ℚ) < (total : ℚ) := by exact_mod_cast h0
  refine ⟨rfl, ?_, ?_⟩
  · unfold percentOf pyRound2
    have hrnd : 0 ≤ rndHalfEven (100 * ((count:ℚ) / (total:ℚ) * 100)) :=
      rndHalfEven_nonneg _ (by positivity)
    have : ((0:ℤ):ℚ) ≤ ((rndHalfEven (100 * ((count:ℚ) / (total:ℚ) * 100)) : ℤ) : ℚ) := by
      exact_mod_cast hrnd
    push_cast at this
    linarith
  · unfold percentOf pyRound2
    have hdiv : (count:ℚ) / (total:ℚ) ≤ 1 := by
      rw [div_le_one ht]
      exact_mod_cast hle
    have hx : (count:ℚ) / (total:ℚ) * 100 ≤ 100 := by
      have := mul_le_mul_of_nonneg_right hdiv (by norm_num : (0:ℚ) ≤ 100)
      linarith
    have hrnd : rndHalfEven (100 * ((count:ℚ) / (total:ℚ) * 100)) ≤ 10000 :=
      rndHalfEven_le _ 10000 (by push_cast; linarith)
    have hc : ((rndHalfEven (100 * ((count:ℚ) / (total:ℚ) * 100)) : ℤ) : ℚ)
        ≤ ((10000:ℤ):ℚ) := by exact_mod_cast hrnd
    push_cast at hc
    rw [div_le_iff₀ (by norm_num : (0:ℚ) < 100)]
    linarith

/-- C8 witness: the bounds at `count = 1`, `total = 3`. -/
theorem percentOf_bounds_witness :
    percentOf 1 3 = pyRound2 (((1:ℕ) : ℚ) / ((3:ℕ) : ℚ) * 100)
    ∧ 0 ≤ percentOf 1 3 ∧ percentOf 1 3 ≤ 100 :=
  percentOf_bounds 1 3 (by norm_num) (by norm_num)

/-! ## Lemmas: the selection window of `make_list` -/

lemma topData_perm (names texts : List (List Char)) (percents : List ℚ)
    (top : ℕ) (so : Bool) :
    (topData names texts percents top so).Perm
      ((zipData names texts percents).take top) := by
  unfold topData
  cases so with
  | false => simp
  | true =>
    simp only [if_pos]
    exact List.perm_insertionSort _ _

lemma zipData_length (names texts : List (List Char)) (percents : List ℚ) :
    (zipData names texts percents).length
      = min names.length (min texts.length percents.length) := by
  unfold zipData
  simp [List.length_zip]

lemma topData_length (names texts : List (List Char)) (percents : List ℚ)
    (top : ℕ) (so : Bool) :
    (topData names texts percents top so).length
      = min top (min names.length (min texts.length percents.length)) := by
  rw [(topData_perm names texts percents top so).length_eq, List.length_take,
    zipData_length]

/-- C6: the zipped data is truncated to the first `top_num` entries before
sorting: the rendered entries are exactly (a permutation of) the first
`min top_num (len data)` zipped entries, the sort only reorders inside
that window, and no entry outside the window ever appears. -/
theorem make_list_window (syms : Char × Char) (names texts : List (List Char))
    (percents : List ℚ) (top : ℕ) (so : Bool) :
    make_list syms names texts percents top so
      = joinLines ((topData names texts percents top so).map
          (fun e => formatLine syms e.1 e.2.1 e.2.2))
    ∧ (topData names texts percents top so).Perm
        ((zipData names texts percents).take top)
    ∧ (topData names texts percents top so).length
        = min top (zipData names texts percents).length
    ∧ ∀ e ∈ topData names texts percents top so,
        e ∈ (zipData names texts percents).take top := by
  refine ⟨rfl, topData_perm names texts percents top so, ?_, ?_⟩
  · rw [(topData_perm names texts percents top so).length_eq, List.length_take]
  · intro e he
    exact ((topData_perm names texts percents top so).mem_iff).mp he

/-- C7 (amended): parallel sequences of unequal lengths are not rejected:
`zip` silently truncates to the shortest sequence, formatting proceeds,
and the rendered window has `min top_num (min of the three lengths)`
entries. -/
theorem make_list_zip_truncates (syms : Char × Char) (names texts : List (List Char))
    (percents : List ℚ) (top : ℕ) (so : Bool) :
    make_list syms names texts percents top so
      = joinLines ((topData names texts percents top so).map
          (fun e => formatLine syms e.1 e.2.1 e.2.2))
    ∧ (topData names texts percents top so).length
        = min top (min names.length (min texts.length percents.length)) :=
  ⟨rfl, topData_length names texts percents top so⟩

/-- C7 counterexample: with two names but a single text and percent the
call is not rejected — it formats (and returns) the single zipped entry. -/
theorem make_list_zip_truncates_cex :
    make_list sym1 [['a'], ['b']] [['t']] [(5:ℚ)] 5 true
      = joinLines [formatLine sym1 ['a'] ['t'] 5]
    ∧ (topData [['a'], ['b']] [['t']] [(5:ℚ)] 5 true).length = 1 :=
  ⟨rfl, rfl⟩

/-! ## Lemmas: day-time buckets -/

lemma bump_set (a b c d : ℕ) (k : ℕ) (hk : k < 4) :
    [a, b, c, d].set k ([a, b, c, d].getD k 0 + 1)
      = [a + if k = 0 then 1 else 0, b + if k = 1 then 1 else 0,
         c + if k = 2 then 1 else 0, d + if k = 3 then 1 else 0] := by
  interval_cases k <;> simp

lemma countDayTimes_go (hours : List ℕ) (hh : ∀ h ∈ hours, h < 24)
    (a b c d : ℕ) :
    hours.foldl (fun acc h => acc.set (h / 6) (acc.getD (h / 6) 0 + 1)) [a, b, c, d]
      = [a + hours.countP (fun h => h / 6 == 0),
         b + hours.countP (fun h => h / 6 == 1),
         c + hours.countP (fun h => h / 6 == 2),
         d + hours.countP (fun h => h / 6 == 3)] := by
  induction hours generalizing a b c d with
  | nil => simp
  | cons x xs ih =>
    have hx : x < 24 := hh x (List.mem_cons_self _ _)
    have hrest : ∀ h ∈ xs, h < 24 := fun h hm => hh h (List.mem_cons_of_mem _ hm)
    simp only [List.foldl_cons, List.countP_cons]
    rw [bump_set a b c d (x / 6) (by omega), ih hrest]
    rcases (show x / 6 = 0 ∨ x / 6 = 1 ∨ x / 6 = 2 ∨ x / 6 = 3 by omega)
      with h6 | h6 | h6 | h6 <;>
      (simp [h6, List.cons.injEq]; omega)

/-- C9: each localized hour lands in bucket `hour // 6` of 4; only after
counting is the array rotated left by one, so the published order is
`[6-12, 12-18, 18-24, 0-6]`, with `published[i] = raw[(i+1) % 4]`, and
the rotation permutes (never changes) the counts. -/
theorem day_time_buckets (hours : List ℕ) (hh : ∀ h ∈ hours, h < 24) :
    countDayTimes hours
      = [hours.countP (fun h => h / 6 == 0), hours.countP (fun h => h / 6 == 1),
         hours.countP (fun h => h / 6 == 2), hours.countP (fun h => h / 6 == 3)]
    ∧ publishedDayTimes hours
      = [hours.countP (fun h => h / 6 == 1), hours.countP (fun h => h / 6 == 2),
         hours.countP (fun h => h / 6 == 3), hours.countP (fun h => h / 6 == 0)]
    ∧ (∀ i < 4, (publishedDayTimes hours).getD i 0
        = (countDayTimes hours).getD ((i + 1) % 4) 0)
    ∧ (publishedDayTimes hours).Perm (countDayTimes hours) := by
  have hraw : countDayTimes hours
      = [hours.countP (fun h => h / 6 == 0), hours.countP (fun h => h / 6 == 1),
         hours.countP (fun h => h / 6 == 2), hours.countP (fun h => h / 6 == 3)] := by
    unfold countDayTimes
    simpa using countDayTimes_go hours hh 0 0 0 0
  refine ⟨hraw, ?_, ?_, ?_⟩
  · unfold publishedDayTimes rotateLeft1
    rw [hraw]
    rfl
  · intro i hi
    unfold publishedDayTimes rotateLeft1
    rw [hraw]
    interval_cases i <;> rfl
  · unfold publishedDayTimes rotateLeft1
    have htd : (countDayTimes hours).take 1 ++ (countDayTimes hours).drop 1
        = countDayTimes hours := List.take_append_drop 1 _
    conv_rhs => rw [← htd]
    exact List.perm_append_comm

/-- C9 witness: the bucket laws at the distinguishing hours 1, 8, 14, 20. -/
theorem day_time_buckets_witness :
    countDayTimes [1, 8, 14, 20]
      = [[1, 8, 14, 20].countP (fun h => h / 6 == 0),
         [1, 8, 14, 20].countP (fun h => h / 6 == 1),
         [1, 8, 14, 20].countP (fun h => h / 6 == 2),
         [1, 8, 14, 20].countP (fun h => h / 6 == 3)]
    ∧ publishedDayTimes [1, 8, 14, 20]
      = [[1, 8, 14, 20].countP (fun h => h / 6 == 1),
         [1, 8, 14, 20].countP (fun h => h / 6 == 2),
         [1, 8, 14, 20].countP (fun h => h / 6 == 3),
         [1, 8, 14, 20].countP (fun h => h / 6 == 0)]
    ∧ (∀ i < 4, (publishedDayTimes [1, 8, 14, 20]).getD i 0
        = (countDayTimes [1, 8, 14, 20]).getD ((i + 1) % 4) 0)
    ∧ (publishedDayTimes [1, 8, 14, 20]).Perm (countDayTimes [1, 8, 14, 20]) :=
  day_time_buckets [1, 8, 14, 20] (by decide)

/-! ## Lemmas: the per-repo language list -/

lemma maxByCount_ne_nil (l : List (List Char × ℕ)) (top : List Char)
    (h : maxByCount l = some top) : l ≠ [] := by
  intro hnil
  subst hnil
  exact Option.noConfusion h

/-- C10: `make_language_per_repo_list` evaluates `max` over the language
counts before its `len(repos_with_language) > 0` guard (which only selects
the title): on an input with no non-null primary language the `max` of an
empty sequence raises (modelled as `none`) — the operation never returns —
and whenever it does return, the result carries the `I Mostly Code in`
title, so the guarded title-less branch is unreachable. -/
theorem make_language_per_repo_list_titled (tr : List Char → List Char)
    (syms : Char × Char) (langs : List (Option (List Char))) :
    ((∀ o ∈ langs, o = none) → make_language_per_repo_list tr syms langs = none)
    ∧ ∀ r, make_language_per_repo_list tr syms langs = some r →
        (∃ o ∈ langs, o ≠ none)
        ∧ ∃ top body, r = "**".toList ++ tr top ++ "** \n\n".toList ++ body := by
  constructor
  · intro hall
    have hfm : langs.filterMap id = [] := by
      rw [List.filterMap_eq_nil_iff]
      intro a ha
      simpa using hall a ha
    unfold make_language_per_repo_list
    rw [hfm]
    rfl
  · intro r h
    unfold make_language_per_repo_list at h
    dsimp only at h
    cases hm : maxByCount (countLangs (langs.filterMap id)) with
    | none =>
      rw [hm] at h
      exact Option.noConfusion h
    | some top =>
      rw [hm] at h
      have hne : countLangs (langs.filterMap id) ≠ [] := maxByCount_ne_nil _ _ hm
      have hrwl : langs.filterMap id ≠ [] := by
        intro h0
        rw [h0] at hne
        exact hne rfl
      have hlen : 0 < (langs.filterMap id).length := List.length_pos.mpr hrwl
      constructor
      · by_contra hallnot
        push_neg at hallnot
        apply hrwl
        rw [List.filterMap_eq_nil_iff]
        intro a ha
        simpa using hallnot a ha
      · have hr := Option.some.inj h
        refine ⟨top, "```text\n".toList
          ++ make_list syms ((countLangs (langs.filterMap id)).map Prod.fst)
              ((countLangs (langs.filterMap id)).map (fun p => repoText p.2))
              ((countLangs (langs.filterMap id)).map
                (fun p => percentOf p.2 (langs.filterMap id).length))
          ++ "\n```\n\n".toList, ?_⟩
        rw [← hr, if_pos hlen]
        simp [List.append_assoc]

/-- C10 witness: the all-`None` input errors, and a one-repository input
returns a titled result, via the theorem. -/
theorem make_language_per_repo_list_titled_witness :
    make_language_per_repo_list id sym1 [none, none] = none
    ∧ ((∃ o ∈ [some ("Py".toList)], o ≠ none)
      ∧ ∃ top body,
          (make_language_per_repo_list id sym1 [some ("Py".toList)]).getD []
            = "**".toList ++ id top ++ "** \n\n".toList ++ body) :=
  ⟨(make_language_per_repo_list_titled id sym1 [none, none]).1 (by simp),
   (make_language_per_repo_list_titled id sym1 [some ("Py".toList)]).2 _ rfl⟩
